import Mathlib

/-!
Verification development for the mandelbrot repository
(src/mandelbrot.rs, src/matrix.rs, src/point.rs, src/utils.rs).

Modelling conventions:
- f64 values are modelled by the rationals.  Every claim settled here is an
  order-theoretic or algebraic property of the algorithms (escape loops,
  stepping rules, grid writes), stated over the exact-arithmetic model of the
  code.  The total order on the rationals makes the NaN branch of the f64
  partial_cmp in get_closer dead in the model.
- u32 values are modelled by natural numbers.  In every arithmetic operation
  performed by the modelled code the u32 range cannot be exceeded (the
  get_closer guards ensure self + step is at most the target, and subtraction
  is only taken of the smaller from the larger); Nat subtraction is the same
  saturating subtraction Rust's saturating_sub performs.
- Vec-backed storage is a List; a Matrix is width, height and the data list.
- The crossbeam pipeline is modelled by quantifying over the arrival order of
  mapped results at the consumer: any interleaving produced by any number of
  workers is a permutation of the mapped item list.
-/

namespace Mandelbrot

/-- Model of Point<T> from src/point.rs: a 2-component vector. -/
structure Point (α : Type) where
  x : α
  y : α
deriving DecidableEq, Repr

/-- Elementwise division of a Point<f64> by an f64 scalar, the
Div<T> impl for Point<T> (splat then elementwise divide). -/
def Point.divScalar (p : Point ℚ) (s : ℚ) : Point ℚ :=
  ⟨p.x / s, p.y / s⟩

/-- Model of the Iteration enum from src/mandelbrot.rs. -/
inductive Iteration where
  | finite (iter : ℕ)
  | infinite
deriving DecidableEq, Repr

/-- The escape loop of MandelbrotComplex::compute_iterations
(src/mandelbrot.rs lines 42-50), fuel counts the remaining loop steps and i
is the current loop index.  The squared terms are computed from the pre-update
z, the escape test runs before the update, and z_im is assigned from the old
z_re while z_re is assigned from the saved squares. -/
def mandelLoop (re im : ℚ) : ℕ → ℚ → ℚ → ℕ → Iteration
  | 0, _, _, _ => .infinite
  | fuel + 1, zre, zim, i =>
    let sqRe := zre * zre
    let sqIm := zim * zim
    if sqRe + sqIm > 4 then .finite i
    else mandelLoop re im fuel (sqRe - sqIm + re) (2 * zre * zim + im) (i + 1)

/-- The fast interior box test of compute_iterations (src/mandelbrot.rs
line 37). -/
def insideFastBox (re im : ℚ) : Prop :=
  re > -(1/2) ∧ re < 1/4 ∧ im > -(1/2) ∧ im < 1/2

instance (re im : ℚ) : Decidable (insideFastBox re im) := by
  unfold insideFastBox; infer_instance

/-- Model of MandelbrotComplex::compute_iterations (src/mandelbrot.rs
lines 35-52). -/
def compute_iterations (re im : ℚ) (limit : ℕ) : Iteration :=
  if insideFastBox re im then .infinite
  else mandelLoop re im limit re im 0

/-- Reference escape-time recurrence, from the spec: iterate z ← z² + c
starting at z = c.  zSeq n is the value of z before step n. -/
def zSeq (re im : ℚ) : ℕ → ℚ × ℚ
  | 0 => (re, im)
  | n + 1 =>
    let z := zSeq re im n
    (z.1 * z.1 - z.2 * z.2 + re, 2 * z.1 * z.2 + im)

/-- Reference escape test, from the spec: the pre-update squares at step i
sum to more than 4. -/
def escapedAt (re im : ℚ) (i : ℕ) : Prop :=
  (zSeq re im i).1 * (zSeq re im i).1 + (zSeq re im i).2 * (zSeq re im i).2 > 4

instance (re im : ℚ) (i : ℕ) : Decidable (escapedAt re im i) := by
  unfold escapedAt; infer_instance

/-- Model of the u32 GetCloser impl (src/mandelbrot.rs lines 164-188).
The match on cmp is rendered as the equality test then the order test. -/
def getCloserU32 (self tgt step : ℕ) : ℕ × Bool :=
  if self = tgt then (tgt, true)
  else if self < tgt then
    if tgt - self < step then (tgt, true) else (self + step, false)
  else
    if self - tgt < step then (tgt, true) else (self - step, false)

/-- Model of the f64 GetCloser impl (src/mandelbrot.rs lines 190-217) over
the rational model of f64.  The None branch of partial_cmp cannot fire on a
total order, so the three-way comparison remains. -/
def getCloserF64 (self tgt step : ℚ) : ℚ × Bool :=
  if self = tgt then (tgt, true)
  else if self < tgt then
    if tgt - self < step then (tgt, true) else (self + step, false)
  else
    if self - tgt < step then (tgt, true) else (self - step, false)

/-- Model of the Point<f64> GetCloser impl (src/mandelbrot.rs
lines 219-227): componentwise, reached when both axes reached. -/
def getCloserPoint (self tgt step : Point ℚ) : Point ℚ × Bool :=
  let rx := getCloserF64 self.x tgt.x step.x
  let ry := getCloserF64 self.y tgt.y step.y
  (⟨rx.1, ry.1⟩, rx.2 && ry.2)

/-- Model of the Position struct (src/mandelbrot.rs lines 61-66). -/
structure Position where
  point : Point ℚ
  zoom : ℚ
  limit : ℕ
deriving DecidableEq, Repr

/-- Rust `as u32` cast of an f64, in the rational model: truncation toward
zero saturating at the u32 range. -/
def ratToU32 (q : ℚ) : ℕ :=
  if q < 0 then 0 else min q.floor.toNat (2 ^ 32 - 1)

/-- Model of Position::make_step_point (src/mandelbrot.rs lines 133-137). -/
def make_step_point (p tgt : Position) (offset_scale : Point ℚ) :
    Position × Bool :=
  let r := getCloserPoint p.point tgt.point (offset_scale.divScalar p.zoom)
  ({ p with point := r.1 }, r.2)

/-- Model of Position::make_step_zoom_and_limit (src/mandelbrot.rs
lines 139-155). -/
def make_step_zoom_and_limit (p tgt : Position) (zoom_scale limit_scale : ℚ) :
    Position × Bool :=
  let r := getCloserF64 p.zoom tgt.zoom (p.zoom * zoom_scale)
  let p1 : Position := { p with zoom := r.1 }
  if r.2 then ({ p1 with limit := tgt.limit }, true)
  else if p1.limit ≠ tgt.limit then
    let limit_step :=
      max (ratToU32 ((p1.limit : ℚ) * zoom_scale * limit_scale)) 1
    ({ p1 with limit := (getCloserU32 p1.limit tgt.limit limit_step).1 }, false)
  else (p1, false)

/-- Model of Position::make_step (src/mandelbrot.rs lines 117-131).  The
Rust && operator short-circuits: when the first sub-step reports false the
second sub-step does not run. -/
def make_step (p tgt : Position) (offset_scale : Point ℚ)
    (zoom_scale limit_scale : ℚ) : Position × Bool :=
  if p.zoom < tgt.zoom then
    let r1 := make_step_point p tgt offset_scale
    if r1.2 then
      let r2 := make_step_zoom_and_limit r1.1 tgt zoom_scale limit_scale
      (r2.1, r1.2 && r2.2)
    else (r1.1, false)
  else
    let r1 := make_step_zoom_and_limit p tgt zoom_scale limit_scale
    if r1.2 then
      let r2 := make_step_point r1.1 tgt offset_scale
      (r2.1, r1.2 && r2.2)
    else (r1.1, false)

/-- The reading of make_step asserted by the claim: both sub-steps always
performed in the stated order within the tick, result is the conjunction of
the two reached flags.  Stated from the claim text, for comparison with the
source model make_step. -/
def make_step_bothSubsteps (p tgt : Position) (offset_scale : Point ℚ)
    (zoom_scale limit_scale : ℚ) : Position × Bool :=
  if p.zoom < tgt.zoom then
    let r1 := make_step_point p tgt offset_scale
    let r2 := make_step_zoom_and_limit r1.1 tgt zoom_scale limit_scale
    (r2.1, r1.2 && r2.2)
  else
    let r1 := make_step_zoom_and_limit p tgt zoom_scale limit_scale
    let r2 := make_step_point r1.1 tgt offset_scale
    (r2.1, r1.2 && r2.2)

/-- Worker count computation of pipeline (src/utils.rs lines 80-84):
the optional explicit count, or else the available parallelism, then
saturating_sub(1).max(1).  Nat subtraction is saturating. -/
def worker_count (workers : Option ℕ) (available_parallelism : ℕ) : ℕ :=
  max ((workers.getD available_parallelism) - 1) 1

/-- Model of Matrix from src/matrix.rs: width, height and the linear
storage.  The construction invariant data.length = width * height is carried
as a hypothesis where a claim needs it. -/
structure Matrix (α : Type) where
  width : ℕ
  height : ℕ
  data : List α
deriving DecidableEq, Repr

/-- Row-major linear index (Matrix::data_index, src/matrix.rs line 84). -/
def dataIndex (w x y : ℕ) : ℕ := y * w + x

/-- Model of Matrix::set (src/matrix.rs line 125) on in-bounds coordinates:
the storage cell at y*width+x is replaced.  On out-of-bounds coordinates the
source panics; the in-bounds precondition is established separately where
used (List.set leaves the list unchanged there, which is never exercised by
a claim). -/
def Matrix.set (m : Matrix α) (x y : ℕ) (v : α) : Matrix α :=
  { m with data := m.data.set (dataIndex m.width x y) v }

/-- Model of Matrix::try_from_raw (src/matrix.rs lines 32-38).  The u32 to
usize casts and the usize product are exact. -/
def try_from_raw (w h : ℕ) (data : List α) : Except (List α) (Matrix α) :=
  if w * h = data.length then .ok ⟨w, h, data⟩ else .error data

/-- Model of Matrix::indexes (src/matrix.rs lines 72-74): (0..h) cross-join
(0..w), flipped, i.e. row-major (x, y) with y outer. -/
def indexes (w h : ℕ) : List (ℕ × ℕ) :=
  (List.range h).flatMap (fun y => (List.range w).map (fun x => (x, y)))

/-- The write loop of the non-smoothed sequential build (src/mandelbrot.rs
lines 439-443): pairs_mut zips the index sequence with the storage slots in
lockstep and each slot receives the transform of its index. -/
def writeZip : List (ℕ × ℕ) → List α → ((ℕ × ℕ) → α) → List α
  | [], rest, _ => rest
  | _ :: _, [], _ => []
  | i :: is, _ :: vs, f => f i :: writeZip is vs f

/-- The consumer loop of the parallel non-smoothed build: each received
(slot, item) write is applied to the storage in arrival order. -/
def applyWrites (data : List α) (ws : List (ℕ × α)) : List α :=
  ws.foldl (fun d iv => d.set iv.1 iv.2) data

/-- Rust (0..n).step_by(s) for s ≥ 1: the multiples of s below n. -/
def stepRange (n s : ℕ) : List ℕ :=
  (List.range ((n + s - 1) / s)).map (fun k => k * s)

/-- Model of indexes_step_by (src/mandelbrot.rs lines 545-555).  Rust's
step_by panics when the step is 0, modelled as none. -/
def indexes_step_by (w h sx sy : ℕ) : Option (List (ℕ × ℕ)) :=
  if sx = 0 ∨ sy = 0 then none
  else some ((stepRange h sy).flatMap (fun y => (stepRange w sx).map (fun x => (x, y))))

/-- The block-member offset rectangle of index_groups (src/mandelbrot.rs
line 536): (0..sy) cross-join (0..sx), flipped to (dx, dy) pairs. -/
def rectOffsets (sx sy : ℕ) : List (ℕ × ℕ) :=
  (List.range sy).flatMap (fun dy => (List.range sx).map (fun dx => (dx, dy)))

/-- Model of index_groups (src/mandelbrot.rs lines 528-543): each stepped
index is paired with its block members, translated by the block offsets and
filtered to the grid bounds. -/
def index_groups (w h sx sy : ℕ) :
    Option (List ((ℕ × ℕ) × List (ℕ × ℕ))) :=
  (indexes_step_by w h sx sy).map (fun idxs =>
    idxs.map (fun p =>
      (p, ((rectOffsets sx sy).map (fun d => (p.1 + d.1, p.2 + d.2))).filter
        (fun q => decide (q.1 < w ∧ q.2 < h)))))

/-- Model of get_point_offset (src/mandelbrot.rs lines 514-526).  The
viewport offset is Point(w, h) times the negated scale (default (1/2, 1/2));
the rect offset is the half block size under u32 division, default zero. -/
def get_point_offset (w h : ℕ) (viewport_offset_scale : Option (Point ℚ))
    (smooth : Option (Point ℕ)) : Point ℚ :=
  let vos := viewport_offset_scale.getD ⟨1/2, 1/2⟩
  let viewport_offset : Point ℚ := ⟨(w : ℚ) * -vos.x, (h : ℚ) * -vos.y⟩
  let rect_offset : Point ℚ :=
    match smooth with
    | some s => ⟨((s.x / 2 : ℕ) : ℚ), ((s.y / 2 : ℕ) : ℚ)⟩
    | none => ⟨0, 0⟩
  ⟨viewport_offset.x + rect_offset.x, viewport_offset.y + rect_offset.y⟩

/-- Model of Position::as_complex_with_offset (src/mandelbrot.rs
lines 113-115): the plane point at offset/zoom from the center, as the
(re, im) pair of the complex number. -/
def as_complex_with_offset (pos : Position) (offset : Point ℚ) : ℚ × ℚ :=
  (pos.point.x + offset.x / pos.zoom, pos.point.y + offset.y / pos.zoom)

/-- The transform_index_to_item closure of the builders (src/mandelbrot.rs
lines 417-428): add the point offset to the index, map to the plane,
evaluate, convert. -/
def transform_index_to_item (pos : Position) (convert : Iteration → α)
    (point_offset : Point ℚ) (idx : ℕ × ℕ) : α :=
  let p : Point ℚ :=
    ⟨(idx.1 : ℚ) + point_offset.x, (idx.2 : ℚ) + point_offset.y⟩
  let c := as_complex_with_offset pos p
  convert (compute_iterations c.1 c.2 pos.limit)

/-- Model of BuildMandelbrotSetOptions (src/mandelbrot.rs lines 309-313). -/
structure BuildMandelbrotSetOptions where
  viewport_offset_scale : Option (Point ℚ)
  smooth : Option (Point ℕ)
deriving DecidableEq, Repr

/-- Model of the sequential MandelbrotSetImage::build_image
(src/mandelbrot.rs lines 402-446).  The smoothed path evaluates one item per
group and broadcasts it to the group members through Matrix::set; the
non-smoothed path writes the slots of pairs_mut in lockstep.  The result is
none exactly when the smoothed path would panic in step_by(0). -/
def build_image (m : Matrix α) (pos : Position) (convert : Iteration → α)
    (options : BuildMandelbrotSetOptions) : Option (Matrix α) :=
  let po := get_point_offset m.width m.height options.viewport_offset_scale
    options.smooth
  let f := transform_index_to_item pos convert po
  match options.smooth with
  | some s =>
    (index_groups m.width m.height s.x s.y).map (fun groups =>
      groups.foldl
        (fun acc g => g.2.foldl (fun a q => a.set q.1 q.2 (f g.1)) acc) m)
  | none => some { m with data := writeZip (indexes m.width m.height) m.data f }

/-- The work items of the parallel non-smoothed build: pairs_mut zips the
index sequence with the storage slots, each slot named by its linear
position. -/
def pairs_list (m : Matrix α) : List ((ℕ × ℕ) × ℕ) :=
  (indexes m.width m.height).zip (List.range m.data.length)

/-- The mapped results of the parallel non-smoothed build
(src/mandelbrot.rs lines 497-509): each work item becomes the write of the
transformed item to its destination slot. -/
def par_writes (m : Matrix α) (pos : Position) (convert : Iteration → α)
    (viewport_offset_scale : Option (Point ℚ)) : List (ℕ × α) :=
  let po := get_point_offset m.width m.height viewport_offset_scale none
  (pairs_list m).map (fun ik => (ik.2, transform_index_to_item pos convert po ik.1))

/-- The consumer of the parallel non-smoothed build applied to the results
in their arrival order.  The worker count of the pipeline only influences
which arrival orders are possible; every order is a permutation of
par_writes, which the equivalence theorem quantifies over. -/
def par_build_image_nonsmoothed (m : Matrix α) (arrival : List (ℕ × α)) :
    Matrix α :=
  { m with data := applyWrites m.data arrival }

/-- The state transformer of one animation tick: the Position after
make_step. -/
def stepPos (tgt : Position) (os : Point ℚ) (zs ls : ℚ) (p : Position) :
    Position :=
  (make_step p tgt os zs ls).1

/-- The reached flag reported by one animation tick. -/
def stepFlag (tgt : Position) (os : Point ℚ) (zs ls : ℚ) (p : Position) :
    Bool :=
  (make_step p tgt os zs ls).2

/-- The Position after n animation ticks from start. -/
def posSeq (tgt : Position) (os : Point ℚ) (zs ls : ℚ) (start : Position)
    (n : ℕ) : Position :=
  (stepPos tgt os zs ls)^[n] start

/-- One scalar get_closer move toward tgt with a fixed step. -/
def gcIter (tgt st a : ℚ) : ℚ := (getCloserF64 a tgt st).1

/-- The reached flag of the scalar get_closer orbit at call m. -/
def gcFlagAt (tgt st a : ℚ) (m : ℕ) : Bool :=
  (getCloserF64 ((gcIter tgt st)^[m] a) tgt st).2

/-- One point get_closer move toward tgt with a fixed step. -/
def pIter (tgt st a : Point ℚ) : Point ℚ := (getCloserPoint a tgt st).1

/-- The reached flag of the point get_closer orbit at call m. -/
def pFlagAt (tgt st a : Point ℚ) (m : ℕ) : Bool :=
  (getCloserPoint ((pIter tgt st)^[m] a) tgt st).2

/-- One zoom move toward tgt: get_closer with the geometric step
zoom * zoom_scale, as performed by make_step_zoom_and_limit. -/
def zIter (tgt zs z : ℚ) : ℚ := (getCloserF64 z tgt (z * zs)).1

/-- The reached flag of the zoom orbit at call m. -/
def zFlagAt (tgt zs z : ℚ) (m : ℕ) : Bool :=
  (getCloserF64 ((zIter tgt zs)^[m] z) tgt (((zIter tgt zs)^[m] z) * zs)).2

/-- Absolute distance on the rational model of f64. -/
def ratDist (a b : ℚ) : ℚ := |a - b|

/-- The animation loop from position p terminates: some tick reports
reached. -/
def TermIn (tgt : Position) (os : Point ℚ) (zs ls : ℚ) (p : Position) : Prop :=
  ∃ n, stepFlag tgt os zs ls (posSeq tgt os zs ls p n) = true

/-- C9: try_from_raw succeeds, yielding the grid with the given width,
height and storage, exactly when the storage length equals width * height,
and fails returning the untouched storage otherwise. -/
theorem c9_try_from_raw {α : Type} (w h : ℕ) (data : List α) :
    (data.length = w * h → try_from_raw w h data = .ok ⟨w, h, data⟩) ∧
    (data.length ≠ w * h → try_from_raw w h data = .error data) := by
  refine ⟨fun hl => ?_, fun hl => ?_⟩
  · rw [try_from_raw, if_pos hl.symm]
  · rw [try_from_raw, if_neg (fun hh => hl hh.symm)]

theorem c9_witness :
    ((List.replicate 12 (0 : ℕ)).length = 3 * 4 ∧
      try_from_raw 3 4 (List.replicate 12 (0 : ℕ)) =
        .ok ⟨3, 4, List.replicate 12 0⟩) ∧
    ((List.replicate 11 (0 : ℕ)).length ≠ 3 * 4 ∧
      try_from_raw 3 4 (List.replicate 11 (0 : ℕ)) =
        .error (List.replicate 11 0)) :=
  ⟨⟨by decide, (c9_try_from_raw 3 4 _).1 (by decide)⟩,
   ⟨by decide, (c9_try_from_raw 3 4 _).2 (by decide)⟩⟩

/-- C4 counterexample: the claim says an explicit worker count Some(2)
runs exactly 2 workers, but pipeline computes max(2 - 1, 1) = 1 worker. -/
theorem c4_counterexample :
    worker_count (some 2) 8 = 1 ∧ worker_count (some 2) 8 ≠ 2 := by decide

/-- C4 (amended): the subtract-one-floor-one adjustment applies to the
explicit worker count as well: Some(w) yields max(w - 1, 1) workers, and an
absent option yields max(available parallelism - 1, 1). -/
theorem c4_worker_count_amended (w n : ℕ) :
    worker_count (some w) n = max (w - 1) 1 ∧
    worker_count none n = max (n - 1) 1 :=
  ⟨rfl, rfl⟩

/-- C5: inputs strictly inside the open box return Infinite for every limit
including 0 without entering the escape loop, and all other inputs fall
through to the full iteration loop. -/
theorem c5_fast_interior (re im : ℚ) (limit : ℕ) :
    (insideFastBox re im → compute_iterations re im limit = .infinite) ∧
    (¬insideFastBox re im →
      compute_iterations re im limit = mandelLoop re im limit re im 0) := by
  refine ⟨fun h => ?_, fun h => ?_⟩
  · rw [compute_iterations, if_pos h]
  · rw [compute_iterations, if_neg h]

theorem c5_witness :
    (insideFastBox 0 0 ∧ compute_iterations 0 0 0 = .infinite) ∧
    (¬insideFastBox 2 2 ∧
      compute_iterations 2 2 3 = mandelLoop 2 2 3 2 2 0) :=
  ⟨⟨by norm_num [insideFastBox], (c5_fast_interior 0 0 0).1 (by norm_num [insideFastBox])⟩,
   ⟨by norm_num [insideFastBox], (c5_fast_interior 2 2 3).2 (by norm_num [insideFastBox])⟩⟩

lemma zSeq_fst_succ (re im : ℚ) (n : ℕ) :
    (zSeq re im (n + 1)).1 =
      (zSeq re im n).1 * (zSeq re im n).1 -
        (zSeq re im n).2 * (zSeq re im n).2 + re := rfl

lemma zSeq_snd_succ (re im : ℚ) (n : ℕ) :
    (zSeq re im (n + 1)).2 =
      2 * (zSeq re im n).1 * (zSeq re im n).2 + im := rfl

lemma mandelLoop_eq_infinite (re im : ℚ) :
    ∀ (fuel i : ℕ), (∀ j, i ≤ j → j < i + fuel → ¬escapedAt re im j) →
      mandelLoop re im fuel (zSeq re im i).1 (zSeq re im i).2 i = .infinite := by
  intro fuel
  induction fuel with
  | zero => intro i _; rfl
  | succ n ih =>
    intro i h
    have hesc : ¬escapedAt re im i := h i le_rfl (by omega)
    rw [escapedAt] at hesc
    simp only [mandelLoop]
    rw [if_neg hesc, ← zSeq_fst_succ, ← zSeq_snd_succ]
    exact ih (i + 1) (fun j hj1 hj2 => h j (by omega) (by omega))

lemma mandelLoop_eq_finite (re im : ℚ) :
    ∀ (fuel i j : ℕ), i ≤ j → j < i + fuel → escapedAt re im j →
      (∀ k, i ≤ k → k < j → ¬escapedAt re im k) →
      mandelLoop re im fuel (zSeq re im i).1 (zSeq re im i).2 i = .finite j := by
  intro fuel
  induction fuel with
  | zero => intro i j h1 h2 _ _; omega
  | succ n ih =>
    intro i j h1 h2 h3 h4
    by_cases hi : i = j
    · subst hi
      rw [escapedAt] at h3
      simp only [mandelLoop]
      rw [if_pos h3]
    · have hesc : ¬escapedAt re im i := h4 i le_rfl (by omega)
      rw [escapedAt] at hesc
      simp only [mandelLoop]
      rw [if_neg hesc, ← zSeq_fst_succ, ← zSeq_snd_succ]
      exact ih (i + 1) j (by omega) (by omega) h3
        (fun k hk1 hk2 => h4 k (by omega) hk2)

/-- C1: outside the fast-interior box, compute_iterations implements the
reference escape-time recurrence z to z squared plus c starting at z = c,
with the escape test on the pre-update squares checked before the update:
it returns finite i for the least i below the limit at which the squares
sum above 4, and infinite when no step below the limit escapes. -/
theorem c1_compute_iterations_escape (re im : ℚ) (limit : ℕ)
    (hbox : ¬insideFastBox re im) :
    ((∀ i, i < limit → ¬escapedAt re im i) →
      compute_iterations re im limit = .infinite) ∧
    (∀ i, i < limit → escapedAt re im i →
      (∀ j, j < i → ¬escapedAt re im j) →
      compute_iterations re im limit = .finite i) := by
  constructor
  · intro h
    rw [compute_iterations, if_neg hbox]
    exact mandelLoop_eq_infinite re im limit 0 (fun j _ h2 => h j (by omega))
  · intro i h1 h2 h3
    rw [compute_iterations, if_neg hbox]
    exact mandelLoop_eq_finite re im limit 0 i (by omega) (by omega) h2
      (fun k _ hk => h3 k hk)

theorem c1_witness :
    ¬insideFastBox 2 2 ∧ compute_iterations 2 2 10 = .finite 0 :=
  ⟨by norm_num [insideFastBox],
   (c1_compute_iterations_escape 2 2 10 (by norm_num [insideFastBox])).2 0
     (by omega) (by norm_num [escapedAt, zSeq])
     (fun j hj => absurd hj (by omega))⟩

lemma make_step_point_zoom (p tgt : Position) (os : Point ℚ) :
    (make_step_point p tgt os).1.zoom = p.zoom := rfl

lemma make_step_point_limit (p tgt : Position) (os : Point ℚ) :
    (make_step_point p tgt os).1.limit = p.limit := rfl

lemma make_step_zoom_and_limit_point (p tgt : Position) (zs ls : ℚ) :
    (make_step_zoom_and_limit p tgt zs ls).1.point = p.point := by
  rw [make_step_zoom_and_limit]
  cases h : (getCloserF64 p.zoom tgt.zoom (p.zoom * zs)).2
  · simp only [h, Bool.false_eq_true, if_false]
    split_ifs <;> rfl
  · rfl

/-- C3 counterexample: with current zoom below target zoom and a point
sub-step that does not reach, make_step skips the zoom and limit sub-step in
that tick (Rust && short-circuits), so its result differs from the claimed
always-run-both reading; here the code leaves zoom at 1 while the claimed
reading advances it to 3/2. -/
theorem c3_counterexample :
    make_step ⟨⟨0, 0⟩, 1, 10⟩ ⟨⟨100, 0⟩, 2, 10⟩ ⟨1, 1⟩ (1/2) 1 ≠
      make_step_bothSubsteps ⟨⟨0, 0⟩, 1, 10⟩ ⟨⟨100, 0⟩, 2, 10⟩ ⟨1, 1⟩
        (1/2) 1 ∧
    (make_step ⟨⟨0, 0⟩, 1, 10⟩ ⟨⟨100, 0⟩, 2, 10⟩ ⟨1, 1⟩ (1/2) 1).1.zoom = 1 ∧
    (make_step_bothSubsteps ⟨⟨0, 0⟩, 1, 10⟩ ⟨⟨100, 0⟩, 2, 10⟩ ⟨1, 1⟩
      (1/2) 1).1.zoom = 3/2 := by
  norm_num [make_step, make_step_bothSubsteps, make_step_point,
    make_step_zoom_and_limit, getCloserPoint, getCloserF64, Point.divScalar]

/-- C3 (amended): make_step orders the sub-steps by the zoom comparison as
claimed, but the second sub-step runs in the same tick only when the first
one reported reached; when the first sub-step reports not reached the tick
ends with the second sub-step skipped (its state untouched) and make_step
returns false, and when both run make_step returns the second flag, so it
returns true exactly when both sub-steps report reached in that tick. -/
theorem c3_make_step_short_circuit (p tgt : Position) (os : Point ℚ)
    (zs ls : ℚ) :
    (p.zoom < tgt.zoom →
      ((make_step_point p tgt os).2 = false →
        make_step p tgt os zs ls = ((make_step_point p tgt os).1, false) ∧
        (make_step p tgt os zs ls).1.zoom = p.zoom ∧
        (make_step p tgt os zs ls).1.limit = p.limit) ∧
      ((make_step_point p tgt os).2 = true →
        make_step p tgt os zs ls =
          make_step_zoom_and_limit (make_step_point p tgt os).1 tgt zs ls)) ∧
    (¬p.zoom < tgt.zoom →
      ((make_step_zoom_and_limit p tgt zs ls).2 = false →
        make_step p tgt os zs ls =
          ((make_step_zoom_and_limit p tgt zs ls).1, false) ∧
        (make_step p tgt os zs ls).1.point = p.point) ∧
      ((make_step_zoom_and_limit p tgt zs ls).2 = true →
        make_step p tgt os zs ls =
          make_step_point (make_step_zoom_and_limit p tgt zs ls).1 tgt os)) := by
  constructor
  · intro hz
    constructor
    · intro hflag
      rw [make_step, if_pos hz, if_neg (by simp [hflag])]
      exact ⟨rfl, make_step_point_zoom p tgt os, make_step_point_limit p tgt os⟩
    · intro hflag
      rw [make_step, if_pos hz, if_pos (by simp [hflag]), hflag]
      simp
  · intro hz
    constructor
    · intro hflag
      rw [make_step, if_neg hz, if_neg (by simp [hflag])]
      exact ⟨rfl, make_step_zoom_and_limit_point p tgt zs ls⟩
    · intro hflag
      rw [make_step, if_neg hz, if_pos (by simp [hflag]), hflag]
      simp

theorem c3_witness :
    (1 : ℚ) < 2 ∧
    (make_step_point ⟨⟨0, 0⟩, 1, 10⟩ ⟨⟨100, 0⟩, 2, 10⟩ ⟨1, 1⟩).2 = false ∧
    make_step ⟨⟨0, 0⟩, 1, 10⟩ ⟨⟨100, 0⟩, 2, 10⟩ ⟨1, 1⟩ (1/2) 1 =
      ((make_step_point ⟨⟨0, 0⟩, 1, 10⟩ ⟨⟨100, 0⟩, 2, 10⟩ ⟨1, 1⟩).1, false) :=
  ⟨by norm_num,
   by norm_num [make_step_point, getCloserPoint, getCloserF64, Point.divScalar],
   (((c3_make_step_short_circuit ⟨⟨0, 0⟩, 1, 10⟩ ⟨⟨100, 0⟩, 2, 10⟩ ⟨1, 1⟩
       (1/2) 1).1 (by norm_num)).1
     (by norm_num [make_step_point, getCloserPoint, getCloserF64,
       Point.divScalar])).1⟩

lemma getCloserF64_self (a st : ℚ) : getCloserF64 a a st = (a, true) := by
  simp [getCloserF64]

lemma getCloserF64_true_eq {a b st : ℚ}
    (h : (getCloserF64 a b st).2 = true) : (getCloserF64 a b st).1 = b := by
  unfold getCloserF64 at h ⊢
  split_ifs at h ⊢ <;> simp_all

lemma getCloserF64_between (a b st : ℚ) (hst : 0 ≤ st) :
    min a b ≤ (getCloserF64 a b st).1 ∧ (getCloserF64 a b st).1 ≤ max a b := by
  unfold getCloserF64
  split_ifs with h1 h2 h3 h4
  all_goals dsimp only
  · exact h1 ▸ ⟨min_le_right _ _, le_max_right _ _⟩
  · exact ⟨min_le_right _ _, le_max_right _ _⟩
  · constructor
    · exact le_trans (min_le_left _ _) (by linarith)
    · exact le_trans (by linarith [not_lt.mp h3]) (le_max_right _ _)
  · exact ⟨min_le_right _ _, le_max_right _ _⟩
  · have hba : b < a := lt_of_le_of_ne (not_lt.mp h2) (fun e => h1 e.symm)
    have hstep : st ≤ a - b := not_lt.mp h4
    constructor
    · exact le_trans (min_le_right _ _) (by linarith)
    · exact le_trans (by linarith) (le_max_left _ _)

lemma getCloserF64_dist (a b st : ℚ) (hst : 0 ≤ st) :
    ratDist b (getCloserF64 a b st).1 ≤ ratDist b a := by
  unfold getCloserF64 ratDist
  split_ifs with h1 h2 h3 h4
  all_goals dsimp only
  · simp [abs_nonneg]
  · simp [abs_nonneg]
  · have hab : a < b := h2
    have hstep : st ≤ b - a := not_lt.mp h3
    rw [abs_of_nonneg (by linarith), abs_of_nonneg (by linarith)]
    linarith
  · simp [abs_nonneg]
  · have hba : b < a := lt_of_le_of_ne (not_lt.mp h2) (fun e => h1 e.symm)
    have hstep : st ≤ a - b := not_lt.mp h4
    rw [abs_of_nonpos (by linarith), abs_of_nonpos (by linarith)]
    linarith

lemma getCloserU32_self (a st : ℕ) : getCloserU32 a a st = (a, true) := by
  simp [getCloserU32]

lemma getCloserU32_true_eq {a b st : ℕ}
    (h : (getCloserU32 a b st).2 = true) : (getCloserU32 a b st).1 = b := by
  unfold getCloserU32 at h ⊢
  split_ifs at h ⊢ <;> simp_all

lemma getCloserU32_between (a b st : ℕ) :
    min a b ≤ (getCloserU32 a b st).1 ∧ (getCloserU32 a b st).1 ≤ max a b := by
  unfold getCloserU32
  split_ifs <;> constructor <;> simp <;> omega

lemma getCloserU32_dist (a b st : ℕ) :
    Nat.dist b (getCloserU32 a b st).1 ≤ Nat.dist b a := by
  unfold getCloserU32
  split_ifs <;> simp [Nat.dist] <;> omega

lemma getCloserPoint_self (a st : Point ℚ) : getCloserPoint a a st = (a, true) := by
  simp [getCloserPoint, getCloserF64_self]

lemma getCloserPoint_true_eq {a b st : Point ℚ}
    (h : (getCloserPoint a b st).2 = true) : (getCloserPoint a b st).1 = b := by
  unfold getCloserPoint at h ⊢
  simp only [Bool.and_eq_true] at h
  have hx := getCloserF64_true_eq h.1
  have hy := getCloserF64_true_eq h.2
  cases b
  simp_all

lemma mszl_zoom_dist (p tgt : Position) (zs ls : ℚ) (hz : 0 ≤ p.zoom)
    (hzs : 0 ≤ zs) :
    ratDist tgt.zoom (make_step_zoom_and_limit p tgt zs ls).1.zoom ≤
      ratDist tgt.zoom p.zoom := by
  have hstep : (0 : ℚ) ≤ p.zoom * zs := mul_nonneg hz hzs
  have hd := getCloserF64_dist p.zoom tgt.zoom (p.zoom * zs) hstep
  rw [make_step_zoom_and_limit]
  cases h : (getCloserF64 p.zoom tgt.zoom (p.zoom * zs)).2 <;>
    simp only [h, Bool.false_eq_true, if_false, if_true]
  · split_ifs <;> exact hd
  · exact hd

lemma mszl_limit_dist (p tgt : Position) (zs ls : ℚ) :
    Nat.dist tgt.limit (make_step_zoom_and_limit p tgt zs ls).1.limit ≤
      Nat.dist tgt.limit p.limit := by
  rw [make_step_zoom_and_limit]
  cases h : (getCloserF64 p.zoom tgt.zoom (p.zoom * zs)).2 <;>
    simp only [h, Bool.false_eq_true, if_false, if_true]
  · split_ifs
    · exact getCloserU32_dist _ _ _
    · exact le_refl _
  · simp [Nat.dist]

lemma mszl_zoom_nonneg (p tgt : Position) (zs ls : ℚ) (hz : 0 ≤ p.zoom)
    (hzs : 0 ≤ zs) (hzs1 : zs ≤ 1) :
    0 ≤ (make_step_zoom_and_limit p tgt zs ls).1.zoom := by
  have hzoom : 0 ≤ (getCloserF64 p.zoom tgt.zoom (p.zoom * zs)).1 := by
    have hmul : p.zoom * zs ≤ p.zoom := by
      calc p.zoom * zs ≤ p.zoom * 1 := mul_le_mul_of_nonneg_left hzs1 hz
        _ = p.zoom := mul_one _
    have hmul0 : 0 ≤ p.zoom * zs := mul_nonneg hz hzs
    unfold getCloserF64
    split_ifs with h1 h2 h3 h4
    all_goals dsimp only
    · exact h1 ▸ hz
    · linarith
    · linarith
    · linarith
    · linarith
  rw [make_step_zoom_and_limit]
  cases h : (getCloserF64 p.zoom tgt.zoom (p.zoom * zs)).2 <;>
    simp only [h, Bool.false_eq_true, if_false, if_true]
  · split_ifs <;> exact hzoom
  · exact hzoom

/-- C6: the get_closer rule on u32, f64 and Point<f64>, with a non-negative
step, reports reached and returns the target when current equals target,
never overshoots (the result lies between current and target inclusive),
never increases the distance to the target, and returns exactly the target
whenever it reports reached; consequently one make_step tick (with
non-negative scales, a zoom scale at most 1 and a positive zoom) never
increases the distances of the point axes, the zoom or the limit to their
targets. -/
theorem c6_get_closer_no_overshoot :
    (∀ a b st : ℕ,
      getCloserU32 a a st = (a, true) ∧
      min a b ≤ (getCloserU32 a b st).1 ∧
      (getCloserU32 a b st).1 ≤ max a b ∧
      Nat.dist b (getCloserU32 a b st).1 ≤ Nat.dist b a ∧
      ((getCloserU32 a b st).2 = true → (getCloserU32 a b st).1 = b)) ∧
    (∀ a b st : ℚ, 0 ≤ st →
      getCloserF64 a a st = (a, true) ∧
      min a b ≤ (getCloserF64 a b st).1 ∧
      (getCloserF64 a b st).1 ≤ max a b ∧
      ratDist b (getCloserF64 a b st).1 ≤ ratDist b a ∧
      ((getCloserF64 a b st).2 = true → (getCloserF64 a b st).1 = b)) ∧
    (∀ a b st : Point ℚ, 0 ≤ st.x → 0 ≤ st.y →
      getCloserPoint a a st = (a, true) ∧
      min a.x b.x ≤ (getCloserPoint a b st).1.x ∧
      (getCloserPoint a b st).1.x ≤ max a.x b.x ∧
      min a.y b.y ≤ (getCloserPoint a b st).1.y ∧
      (getCloserPoint a b st).1.y ≤ max a.y b.y ∧
      ratDist b.x (getCloserPoint a b st).1.x ≤ ratDist b.x a.x ∧
      ratDist b.y (getCloserPoint a b st).1.y ≤ ratDist b.y a.y ∧
      ((getCloserPoint a b st).2 = true → (getCloserPoint a b st).1 = b)) ∧
    (∀ (p tgt : Position) (os : Point ℚ) (zs ls : ℚ),
      0 < p.zoom → 0 ≤ os.x → 0 ≤ os.y → 0 ≤ zs → zs ≤ 1 →
      ratDist tgt.point.x (stepPos tgt os zs ls p).point.x ≤
        ratDist tgt.point.x p.point.x ∧
      ratDist tgt.point.y (stepPos tgt os zs ls p).point.y ≤
        ratDist tgt.point.y p.point.y ∧
      ratDist tgt.zoom (stepPos tgt os zs ls p).zoom ≤
        ratDist tgt.zoom p.zoom ∧
      Nat.dist tgt.limit (stepPos tgt os zs ls p).limit ≤
        Nat.dist tgt.limit p.limit) := by
  refine ⟨fun a b st => ⟨getCloserU32_self a st, (getCloserU32_between a b st).1,
      (getCloserU32_between a b st).2, getCloserU32_dist a b st,
      fun h => getCloserU32_true_eq h⟩,
    fun a b st hst => ⟨getCloserF64_self a st, (getCloserF64_between a b st hst).1,
      (getCloserF64_between a b st hst).2, getCloserF64_dist a b st hst,
      fun h => getCloserF64_true_eq h⟩,
    fun a b st hx hy => ⟨getCloserPoint_self a st,
      (getCloserF64_between a.x b.x st.x hx).1,
      (getCloserF64_between a.x b.x st.x hx).2,
      (getCloserF64_between a.y b.y st.y hy).1,
      (getCloserF64_between a.y b.y st.y hy).2,
      getCloserF64_dist a.x b.x st.x hx,
      getCloserF64_dist a.y b.y st.y hy,
      fun h => getCloserPoint_true_eq h⟩,
    fun p tgt os zs ls hz hosx hosy hzs hzs1 => ?_⟩
  have hstx : 0 ≤ os.x / p.zoom := div_nonneg hosx hz.le
  have hsty : 0 ≤ os.y / p.zoom := div_nonneg hosy hz.le
  have hpx := getCloserF64_dist p.point.x tgt.point.x (os.x / p.zoom) hstx
  have hpy := getCloserF64_dist p.point.y tgt.point.y (os.y / p.zoom) hsty
  rw [stepPos, make_step]
  split_ifs with hbr
  · -- point first; the zoom and limit sub-step runs only when reached
    cases hflag : (make_step_point p tgt os).2 <;>
      simp only [hflag, Bool.false_eq_true, if_false, if_true]
    · exact ⟨hpx, hpy, by simp [make_step_point_zoom, ratDist], by
        simp [make_step_point_limit, Nat.dist]⟩
    · set p1 := (make_step_point p tgt os).1 with hp1
      have hz1 : p1.zoom = p.zoom := make_step_point_zoom p tgt os
      have hl1 : p1.limit = p.limit := make_step_point_limit p tgt os
      have hpt : (make_step_zoom_and_limit p1 tgt zs ls).1.point = p1.point :=
        make_step_zoom_and_limit_point p1 tgt zs ls
      refine ⟨?_, ?_, ?_, ?_⟩
      · rw [hpt]; exact hpx
      · rw [hpt]; exact hpy
      · have := mszl_zoom_dist p1 tgt zs ls (by rw [hz1]; exact hz.le) hzs
        rw [hz1] at this; exact this
      · have := mszl_limit_dist p1 tgt zs ls
        rw [hl1] at this; exact this
  · -- zoom and limit first; the point sub-step runs only when reached
    cases hflag : (make_step_zoom_and_limit p tgt zs ls).2 <;>
      simp only [hflag, Bool.false_eq_true, if_false, if_true]
    · refine ⟨?_, ?_, mszl_zoom_dist p tgt zs ls hz.le hzs,
        mszl_limit_dist p tgt zs ls⟩
      · rw [make_step_zoom_and_limit_point]
      · rw [make_step_zoom_and_limit_point]
    · have hz1 : 0 ≤ (make_step_zoom_and_limit p tgt zs ls).1.zoom :=
        mszl_zoom_nonneg p tgt zs ls hz.le hzs hzs1
      have hpt : (make_step_zoom_and_limit p tgt zs ls).1.point = p.point :=
        make_step_zoom_and_limit_point p tgt zs ls
      refine ⟨?_, ?_, ?_, ?_⟩
      · rw [show (make_step_point (make_step_zoom_and_limit p tgt zs ls).1
            tgt os).1.point.x =
            (getCloserF64 (make_step_zoom_and_limit p tgt zs ls).1.point.x
              tgt.point.x
              (os.x / (make_step_zoom_and_limit p tgt zs ls).1.zoom)).1
            from rfl, hpt]
        exact getCloserF64_dist _ _ _ (div_nonneg hosx hz1)
      · rw [show (make_step_point (make_step_zoom_and_limit p tgt zs ls).1
            tgt os).1.point.y =
            (getCloserF64 (make_step_zoom_and_limit p tgt zs ls).1.point.y
              tgt.point.y
              (os.y / (make_step_zoom_and_limit p tgt zs ls).1.zoom)).1
            from rfl, hpt]
        exact getCloserF64_dist _ _ _ (div_nonneg hosy hz1)
      · rw [make_step_point_zoom]
        exact mszl_zoom_dist p tgt zs ls hz.le hzs
      · rw [make_step_point_limit]
        exact mszl_limit_dist p tgt zs ls

theorem c6_witness :
    (getCloserU32 3 10 2 = (5, false) ∧
      Nat.dist 10 (getCloserU32 3 10 2).1 ≤ Nat.dist 10 3) ∧
    ((0 : ℚ) ≤ 2 ∧
      ratDist 10 (getCloserF64 3 10 2).1 ≤ ratDist 10 3) ∧
    (ratDist 10 (stepPos ⟨⟨10, 0⟩, 2, 7⟩ ⟨1, 1⟩ (1/2) 1
        ⟨⟨3, 0⟩, 1, 5⟩).point.x ≤ ratDist 10 3) :=
  ⟨⟨by decide, (c6_get_closer_no_overshoot.1 3 10 2).2.2.2.1⟩,
   ⟨by norm_num, ((c6_get_closer_no_overshoot.2.1 3 10 2
      (by norm_num)).2.2.2.1)⟩,
   ((c6_get_closer_no_overshoot.2.2.2 ⟨⟨3, 0⟩, 1, 5⟩ ⟨⟨10, 0⟩, 2, 7⟩ ⟨1, 1⟩
      (1/2) 1 (by norm_num) (by norm_num) (by norm_num) (by norm_num)
      (by norm_num)).1)⟩

lemma mem_indexes {w h : ℕ} {p : ℕ × ℕ} (hp : p ∈ indexes w h) :
    p.1 < w ∧ p.2 < h := by
  simp only [indexes, List.mem_flatMap, List.mem_map, List.mem_range] at hp
  obtain ⟨y, hy, x, hx, rfl⟩ := hp
  exact ⟨hx, hy⟩

lemma indexes_succ (w h : ℕ) :
    indexes w (h + 1) = indexes w h ++ (List.range w).map (fun x => (x, h)) := by
  simp [indexes, List.range_succ]

lemma indexes_length (w h : ℕ) : (indexes w h).length = h * w := by
  induction h with
  | zero => simp [indexes]
  | succ h ih => simp [indexes_succ, ih, Nat.succ_mul]

lemma indexes_keys (w h : ℕ) :
    (indexes w h).map (fun p => dataIndex w p.1 p.2) = List.range (h * w) := by
  induction h with
  | zero => simp [indexes]
  | succ h ih =>
    rw [indexes_succ, List.map_append, ih, List.map_map]
    have h1 : ((fun p => dataIndex w p.1 p.2) ∘ (fun x => (x, h))) =
        fun x => h * w + x := by
      funext x; simp [dataIndex]
    rw [h1, Nat.succ_mul, List.range_add]

lemma applyWrites_cons (d : List α) (iv : ℕ × α) (ws : List (ℕ × α)) :
    applyWrites d (iv :: ws) = applyWrites (d.set iv.1 iv.2) ws := rfl

lemma applyWrites_append (d : List α) (ws1 ws2 : List (ℕ × α)) :
    applyWrites d (ws1 ++ ws2) = applyWrites (applyWrites d ws1) ws2 :=
  List.foldl_append ..

lemma applyWrites_length (d : List α) (ws : List (ℕ × α)) :
    (applyWrites d ws).length = d.length := by
  induction ws generalizing d with
  | nil => rfl
  | cons iv t ih => rw [applyWrites_cons, ih, List.length_set]

lemma applyWrites_getElem_not_mem (d : List α) (ws : List (ℕ × α)) (j : ℕ)
    (hj : j ∉ ws.map Prod.fst) : (applyWrites d ws)[j]? = d[j]? := by
  induction ws generalizing d with
  | nil => rfl
  | cons iv t ih =>
    simp only [List.map_cons, List.mem_cons, not_or] at hj
    rw [applyWrites_cons, ih _ hj.2,
      List.getElem?_set_ne (fun e => hj.1 e.symm)]

lemma applyWrites_getElem_mem (d : List α) (ws : List (ℕ × α)) (j : ℕ) (v : α)
    (hnd : (ws.map Prod.fst).Nodup) (hmem : (j, v) ∈ ws) :
    (applyWrites d ws)[j]? = if j < d.length then some v else none := by
  induction ws generalizing d with
  | nil => simp at hmem
  | cons iv t ih =>
    simp only [List.map_cons, List.nodup_cons] at hnd
    rcases List.mem_cons.mp hmem with heq | hmem2
    · obtain ⟨k, u⟩ := iv
      rw [Prod.mk.injEq] at heq
      obtain ⟨h1, h2⟩ := heq
      subst h1
      subst h2
      rw [applyWrites_cons, applyWrites_getElem_not_mem _ _ _ hnd.1]
      by_cases hlt : j < d.length
      · rw [List.getElem?_set_self hlt, if_pos hlt]
      · rw [if_neg hlt,
          List.set_eq_of_length_le (by omega),
          List.getElem?_eq_none (by omega)]
    · have hjt : j ∈ t.map Prod.fst := by
        simp only [List.mem_map]
        exact ⟨(j, v), hmem2, rfl⟩
      rw [applyWrites_cons, ih _ hnd.2 hmem2]
      simp [List.length_set]

lemma applyWrites_perm (d : List α) {l ws : List (ℕ × α)} (hperm : l.Perm ws)
    (hnd : (ws.map Prod.fst).Nodup) : applyWrites d l = applyWrites d ws := by
  have hndl : (l.map Prod.fst).Nodup := ((hperm.map Prod.fst).nodup_iff).mpr hnd
  apply List.ext_getElem?
  intro j
  by_cases hj : j ∈ ws.map Prod.fst
  · simp only [List.mem_map] at hj
    obtain ⟨q, hmem, rfl⟩ := hj
    rw [applyWrites_getElem_mem d ws q.1 q.2 hnd hmem,
      applyWrites_getElem_mem d l q.1 q.2 hndl (hperm.mem_iff.mpr hmem)]
  · have hjl : j ∉ l.map Prod.fst :=
      fun hmem => hj (((hperm.map Prod.fst).mem_iff).mp hmem)
    rw [applyWrites_getElem_not_mem _ _ _ hjl,
      applyWrites_getElem_not_mem _ _ _ hj]

lemma applyWrites_shift (a : α) (d : List α) (ws : List (ℕ × α)) :
    applyWrites (a :: d) (ws.map (fun p => (p.1 + 1, p.2))) =
      a :: applyWrites d ws := by
  induction ws generalizing a d with
  | nil => rfl
  | cons iv t ih => exact ih a (d.set iv.1 iv.2)

lemma canonical_eq_writeZip (is : List (ℕ × ℕ)) (d : List α)
    (f : (ℕ × ℕ) → α) :
    applyWrites d ((is.zip (List.range d.length)).map (fun p => (p.2, f p.1))) =
      writeZip is d f := by
  induction is generalizing d with
  | nil => rfl
  | cons i it ih =>
    cases d with
    | nil => rfl
    | cons v vt =>
      have hlen : List.range ((v :: vt).length) =
          0 :: (List.range vt.length).map Nat.succ := by
        rw [List.length_cons]
        exact List.range_succ_eq_map vt.length
      rw [hlen]
      show applyWrites (f i :: vt)
          ((it.zip ((List.range vt.length).map Nat.succ)).map
            (fun p => (p.2, f p.1))) =
        f i :: writeZip it vt f
      rw [List.zip_map_right, List.map_map]
      have hcomp : ((fun (p : (ℕ × ℕ) × ℕ) => (p.2, f p.1)) ∘
          Prod.map id Nat.succ) =
          ((fun (q : ℕ × α) => (q.1 + 1, q.2)) ∘ (fun p => (p.2, f p.1))) := by
        funext p
        simp [Prod.map, Nat.succ_eq_add_one]
      rw [hcomp, ← List.map_map, applyWrites_shift, ih vt]

lemma zip_map_snd_take (l1 : List β) (l2 : List γ) :
    (l1.zip l2).map Prod.snd = l2.take l1.length := by
  induction l1 generalizing l2 with
  | nil => simp
  | cons a t ih =>
    cases l2 with
    | nil => simp
    | cons b u => simp [ih]

lemma canonical_keys (is : List (ℕ × ℕ)) (n : ℕ) (f : (ℕ × ℕ) → α) :
    (((is.zip (List.range n)).map (fun p => (p.2, f p.1))).map Prod.fst) =
      List.range (min is.length n) := by
  rw [List.map_map]
  have h1 : (Prod.fst ∘ fun (p : (ℕ × ℕ) × ℕ) => (p.2, f p.1)) =
      (Prod.snd : (ℕ × ℕ) × ℕ → ℕ) := by
    funext p; rfl
  rw [h1, zip_map_snd_take]
  exact List.take_range ..

/-- C10: in the smoothed sequential build with both block sides at least 1,
every index written through Matrix::set is a member of an index_groups
member list and these are filtered to x below width and y below height, so
the out-of-bounds panic of get_mut is unreachable; with a zero block side
the index generation panics in step_by (the build is none in the model). -/
theorem c10_smoothed_writes_in_bounds {α : Type} :
    (∀ w h sx sy, 1 ≤ sx → 1 ≤ sy → ∀ gs, index_groups w h sx sy = some gs →
      ∀ g ∈ gs, ∀ q ∈ g.2, q.1 < w ∧ q.2 < h) ∧
    (∀ sx sy, (sx = 0 ∨ sy = 0) →
      ∀ (m : Matrix α) (pos : Position) (convert : Iteration → α)
        (vos : Option (Point ℚ)),
        build_image m pos convert ⟨vos, some ⟨sx, sy⟩⟩ = none) := by
  constructor
  · intro w h sx sy hsx hsy gs hgs g hg q hq
    have hnz : ¬(sx = 0 ∨ sy = 0) := by omega
    simp only [index_groups, indexes_step_by, if_neg hnz, Option.map_some',
      Option.some.injEq] at hgs
    subst hgs
    simp only [List.mem_map] at hg
    obtain ⟨p, hp, rfl⟩ := hg
    simp only [List.mem_filter, decide_eq_true_eq] at hq
    exact hq.2
  · intro sx sy h0 m pos convert vos
    simp only [build_image, index_groups, indexes_step_by, if_pos h0,
      Option.map_none']

theorem c10_witness :
    (∀ g ∈ (index_groups 3 3 2 2).getD [], ∀ q ∈ g.2, q.1 < 3 ∧ q.2 < 3) ∧
    build_image (⟨2, 2, List.replicate 4 Iteration.infinite⟩ : Matrix Iteration)
      ⟨⟨0, 0⟩, 1, 1⟩ (fun i => i) ⟨none, some ⟨0, 2⟩⟩ = none :=
  ⟨(c10_smoothed_writes_in_bounds (α := Iteration)).1 3 3 2 2 (by omega)
     (by omega) _ (by rfl),
   (c10_smoothed_writes_in_bounds (α := Iteration)).2 0 2 (Or.inl rfl) _ _ _ _⟩

/-- C2: for every Position, grid and viewport offset configuration without
smoothing, the parallel build writes exactly the sequential build's grid:
whatever order the mapped results arrive in (any permutation of the work
item results, covering every worker count and completion schedule), the
consumer produces the same final storage as the sequential write loop. -/
theorem c2_par_build_eq_seq {α : Type} (m : Matrix α) (pos : Position)
    (convert : Iteration → α) (vos : Option (Point ℚ)) (workers : ℕ)
    (_hw : 1 ≤ workers) (arrival : List (ℕ × α))
    (hperm : arrival.Perm (par_writes m pos convert vos)) :
    build_image m pos convert ⟨vos, none⟩ =
      some (par_build_image_nonsmoothed m arrival) := by
  have hnd : ((par_writes m pos convert vos).map Prod.fst).Nodup := by
    simp only [par_writes, pairs_list]
    rw [canonical_keys]
    exact List.nodup_range _
  have harr : applyWrites m.data arrival =
      applyWrites m.data (par_writes m pos convert vos) :=
    applyWrites_perm m.data hperm hnd
  have hmain : applyWrites m.data (par_writes m pos convert vos) =
      writeZip (indexes m.width m.height) m.data
        (transform_index_to_item pos convert
          (get_point_offset m.width m.height vos none)) := by
    simp only [par_writes, pairs_list]
    exact canonical_eq_writeZip _ _ _
  simp only [build_image, par_build_image_nonsmoothed]
  rw [harr, hmain]

theorem c2_witness :
    build_image (⟨2, 2, List.replicate 4 Iteration.infinite⟩ : Matrix Iteration)
      ⟨⟨0, 0⟩, 1, 1⟩ (fun i => i) ⟨none, none⟩ =
      some (par_build_image_nonsmoothed
        ⟨2, 2, List.replicate 4 Iteration.infinite⟩
        ((par_writes ⟨2, 2, List.replicate 4 Iteration.infinite⟩
          ⟨⟨0, 0⟩, 1, 1⟩ (fun i => i) none).reverse)) :=
  c2_par_build_eq_seq _ _ _ _ 1 le_rfl _ (List.reverse_perm _)

lemma get_point_offset_smooth_one (w h : ℕ) (vos : Option (Point ℚ)) :
    get_point_offset w h vos (some ⟨1, 1⟩) = get_point_offset w h vos none := by
  simp [get_point_offset]

lemma stepRange_one (n : ℕ) : stepRange n 1 = List.range n := by
  simp [stepRange]

lemma index_groups_one (w h : ℕ) :
    index_groups w h 1 1 = some ((indexes w h).map (fun p => (p, [p]))) := by
  have hnz : ¬((1 : ℕ) = 0 ∨ (1 : ℕ) = 0) := by omega
  simp only [index_groups, indexes_step_by, if_neg hnz, Option.map_some',
    Option.some.injEq]
  rw [stepRange_one, stepRange_one]
  show (indexes w h).map _ = _
  apply List.map_congr_left
  intro p hp
  have hb := mem_indexes hp
  simp only [Prod.mk.injEq, true_and]
  rw [show rectOffsets 1 1 = [(0, 0)] from rfl]
  simp [List.filter, hb.1, hb.2]

lemma fold_set_members (m : Matrix α) (item : α) (qs : List (ℕ × ℕ)) :
    qs.foldl (fun a q => a.set q.1 q.2 item) m =
      { m with data := applyWrites m.data (qs.map (fun q => (dataIndex m.width q.1 q.2, item))) } := by
  induction qs generalizing m with
  | nil => rfl
  | cons q t ih =>
    rw [List.foldl_cons, ih]
    rfl

lemma fold_set_groups (m : Matrix α) (gs : List ((ℕ × ℕ) × List (ℕ × ℕ)))
    (f : (ℕ × ℕ) → α) :
    gs.foldl (fun acc g => g.2.foldl (fun a q => a.set q.1 q.2 (f g.1)) acc) m =
      { m with data := applyWrites m.data (gs.flatMap (fun g => g.2.map (fun q => (dataIndex m.width q.1 q.2, f g.1)))) } := by
  induction gs generalizing m with
  | nil => rfl
  | cons g t ih =>
    simp only [List.foldl_cons]
    rw [fold_set_members, ih, List.flatMap_cons, applyWrites_append]

lemma indexes_getElem_key (w h k : ℕ) (hk : k < (indexes w h).length) :
    dataIndex w ((indexes w h)[k]).1 ((indexes w h)[k]).2 = k := by
  have h4 := congrArg (fun l => l[k]?) (indexes_keys w h)
  simp only [List.getElem?_map] at h4
  rw [List.getElem?_eq_getElem hk] at h4
  have hk2 : k < h * w := by rwa [indexes_length] at hk
  rw [List.getElem?_range hk2] at h4
  simpa using h4

/-- C8: the sequential smoothed build with block size (1, 1) writes exactly
the same grid as the sequential non-smoothed build with the same other
options: the point offset coincides (half of block 1 is 0 in integer
division) and the groups degenerate to one singleton block per pixel in
row-major order. -/
theorem c8_smooth_one_eq_plain {α : Type} (m : Matrix α) (pos : Position)
    (convert : Iteration → α) (vos : Option (Point ℚ))
    (hlen : m.data.length = m.width * m.height) :
    build_image m pos convert ⟨vos, some ⟨1, 1⟩⟩ =
      build_image m pos convert ⟨vos, none⟩ := by
  simp only [build_image, index_groups_one, get_point_offset_smooth_one,
    Option.map_some', Option.some.injEq]
  rw [fold_set_groups]
  set f := transform_index_to_item pos convert
    (get_point_offset m.width m.height vos none) with hf
  have hflat : ((indexes m.width m.height).map (fun p => (p, [p]))).flatMap
      (fun g => g.2.map (fun q => (dataIndex m.width q.1 q.2, f g.1))) =
      (indexes m.width m.height).map
        (fun p => (dataIndex m.width p.1 p.2, f p)) := by
    induction (indexes m.width m.height) with
    | nil => rfl
    | cons p t ih => simp [List.flatMap_cons, ih]
  rw [hflat]
  have hcan : (indexes m.width m.height).map
      (fun p => (dataIndex m.width p.1 p.2, f p)) =
      ((indexes m.width m.height).zip (List.range m.data.length)).map
        (fun p => (p.2, f p.1)) := by
    have hlen2 : m.data.length = m.height * m.width := by
      rw [hlen, Nat.mul_comm]
    apply List.ext_getElem
    · simp [indexes_length, hlen2]
    · intro k h1 h2
      rw [List.getElem_map, List.getElem_map, List.getElem_zip]
      have hk : k < (indexes m.width m.height).length := by
        simpa using h1
      have hkr : k < m.data.length := by
        simp [indexes_length, hlen2] at h1 ⊢
        omega
      rw [Prod.mk.injEq]
      constructor
      · rw [indexes_getElem_key m.width m.height k hk, List.getElem_range]
      · rfl
  rw [hcan, canonical_eq_writeZip]

theorem c8_witness :
    (List.replicate 4 Iteration.infinite).length = 2 * 2 ∧
    build_image (⟨2, 2, List.replicate 4 Iteration.infinite⟩ : Matrix Iteration)
      ⟨⟨0, 0⟩, 1, 1⟩ (fun i => i) ⟨none, some ⟨1, 1⟩⟩ =
      build_image (⟨2, 2, List.replicate 4 Iteration.infinite⟩ : Matrix Iteration)
        ⟨⟨0, 0⟩, 1, 1⟩ (fun i => i) ⟨none, none⟩ :=
  ⟨rfl, c8_smooth_one_eq_plain _ _ _ _ rfl⟩

lemma gcFlagAt_succ (b st a : ℚ) (m : ℕ) :
    gcFlagAt b st a (m + 1) = gcFlagAt b st (gcIter b st a) m := by
  rw [gcFlagAt, gcFlagAt, Function.iterate_succ_apply]

lemma gcIter_fix (b st : ℚ) : gcIter b st b = b := by
  rw [gcIter, getCloserF64_self]

lemma gc_flag_of_close (a b st : ℚ) (h : |b - a| < st) :
    (getCloserF64 a b st).2 = true := by
  unfold getCloserF64
  split_ifs with h1 h2 h3 h4
  · rfl
  · rfl
  · exfalso
    rw [abs_of_pos (by linarith : (0 : ℚ) < b - a)] at h
    exact h3 h
  · rfl
  · exfalso
    have hba : b < a := lt_of_le_of_ne (not_lt.mp h2) (fun e => h1 e.symm)
    rw [abs_of_neg (by linarith : b - a < 0)] at h
    exact h4 (by linarith)

lemma gc_step_progress (a b st : ℚ) (h : (getCloserF64 a b st).2 = false) :
    st ≤ |b - a| ∧ |b - gcIter b st a| = |b - a| - st := by
  rcases lt_trichotomy a b with hab | hab | hab
  · have hstep : ¬(b - a < st) := by
      intro hlt
      have htrue : (getCloserF64 a b st).2 = true := by
        unfold getCloserF64
        rw [if_neg hab.ne, if_pos hab, if_pos hlt]
      rw [htrue] at h
      cases h
    have hv : gcIter b st a = a + st := by
      rw [gcIter]
      unfold getCloserF64
      rw [if_neg hab.ne, if_pos hab, if_neg hstep]
    have h5 : st ≤ b - a := not_lt.mp hstep
    rw [hv]
    constructor
    · rw [abs_of_pos (by linarith : (0 : ℚ) < b - a)]
      exact h5
    · rw [abs_of_pos (by linarith : (0 : ℚ) < b - a),
        abs_of_nonneg (by linarith : (0 : ℚ) ≤ b - (a + st))]
      ring
  · exfalso
    subst hab
    rw [getCloserF64_self] at h
    cases h
  · have hstep : ¬(a - b < st) := by
      intro hlt
      have htrue : (getCloserF64 a b st).2 = true := by
        unfold getCloserF64
        rw [if_neg hab.ne', if_neg (not_lt.mpr hab.le), if_pos hlt]
      rw [htrue] at h
      cases h
    have hv : gcIter b st a = a - st := by
      rw [gcIter]
      unfold getCloserF64
      rw [if_neg hab.ne', if_neg (not_lt.mpr hab.le), if_neg hstep]
    have h5 : st ≤ a - b := not_lt.mp hstep
    rw [hv]
    constructor
    · rw [abs_of_neg (by linarith : b - a < 0)]
      linarith
    · rw [abs_of_neg (by linarith : b - a < 0),
        abs_of_nonpos (by linarith : b - (a - st) ≤ 0)]
      ring

lemma gc_reaches_aux (b st : ℚ) (_hst : 0 < st) :
    ∀ (n : ℕ) (a : ℚ), |b - a| < n * st →
      ∃ m, gcFlagAt b st a m = true := by
  intro n
  induction n with
  | zero =>
    intro a h0
    simp only [Nat.cast_zero, zero_mul] at h0
    exact absurd h0 (not_lt.mpr (abs_nonneg _))
  | succ n ih =>
    intro a h0
    cases hflag : (getCloserF64 a b st).2
    · obtain ⟨hst2, hprog⟩ := gc_step_progress a b st hflag
      have hcast : ((n + 1 : ℕ) : ℚ) * st = (n : ℚ) * st + st := by
        push_cast
        ring
      rw [hcast] at h0
      have h1 : |b - gcIter b st a| < n * st := by
        rw [hprog]
        linarith
      obtain ⟨m, hm⟩ := ih (gcIter b st a) h1
      exact ⟨m + 1, by rwa [gcFlagAt_succ]⟩
    · exact ⟨0, hflag⟩

lemma gc_reaches (b st : ℚ) (hst : 0 < st) (a : ℚ) :
    ∃ m, gcFlagAt b st a m = true := by
  obtain ⟨n, hn⟩ := exists_nat_gt (|b - a| / st)
  refine gc_reaches_aux b st hst n a ?_
  rw [div_lt_iff₀ hst] at hn
  linarith

lemma gcOrbit_fix_after (b st a : ℚ) (m : ℕ) (h : gcFlagAt b st a m = true) :
    ∀ k, (gcIter b st)^[m + 1 + k] a = b := by
  intro k
  induction k with
  | zero =>
    rw [Nat.add_zero, Function.iterate_succ_apply']
    exact getCloserF64_true_eq h
  | succ k ih =>
    rw [show m + 1 + (k + 1) = (m + 1 + k) + 1 from rfl,
      Function.iterate_succ_apply', ih, gcIter_fix]

lemma gcFlagAt_true_ge {b st a : ℚ} {m : ℕ} (h : gcFlagAt b st a m = true) :
    ∀ k, m ≤ k → gcFlagAt b st a k = true := by
  intro k hk
  rcases Nat.eq_or_lt_of_le hk with rfl | hlt
  · exact h
  · obtain ⟨j, rfl⟩ : ∃ j, k = m + 1 + j := ⟨k - (m + 1), by omega⟩
    rw [gcFlagAt, gcOrbit_fix_after b st a m h j, getCloserF64_self]

lemma pFlagAt_succ (b st : Point ℚ) (a : Point ℚ) (m : ℕ) :
    pFlagAt b st a (m + 1) = pFlagAt b st (pIter b st a) m := by
  rw [pFlagAt, pFlagAt, Function.iterate_succ_apply]

lemma pIter_components (b st a : Point ℚ) (m : ℕ) :
    ((pIter b st)^[m] a).x = (gcIter b.x st.x)^[m] a.x ∧
    ((pIter b st)^[m] a).y = (gcIter b.y st.y)^[m] a.y := by
  induction m with
  | zero => exact ⟨rfl, rfl⟩
  | succ m ih =>
    rw [Function.iterate_succ_apply', Function.iterate_succ_apply',
      Function.iterate_succ_apply']
    exact ⟨congrArg (gcIter b.x st.x) ih.1, congrArg (gcIter b.y st.y) ih.2⟩

lemma p_reaches (b st : Point ℚ) (hx : 0 < st.x) (hy : 0 < st.y)
    (a : Point ℚ) : ∃ m, pFlagAt b st a m = true := by
  obtain ⟨mx, hmx⟩ := gc_reaches b.x st.x hx a.x
  obtain ⟨my, hmy⟩ := gc_reaches b.y st.y hy a.y
  refine ⟨max mx my, ?_⟩
  have h1 : gcFlagAt b.x st.x a.x (max mx my) = true :=
    gcFlagAt_true_ge hmx _ (le_max_left ..)
  have h2 : gcFlagAt b.y st.y a.y (max mx my) = true :=
    gcFlagAt_true_ge hmy _ (le_max_right ..)
  have hc := pIter_components b st a (max mx my)
  show ((getCloserF64 ((pIter b st)^[max mx my] a).x b.x st.x).2 &&
    (getCloserF64 ((pIter b st)^[max mx my] a).y b.y st.y).2) = true
  rw [hc.1, hc.2]
  rw [gcFlagAt] at h1 h2
  rw [h1, h2]
  rfl

lemma zFlagAt_succ (tz zs z : ℚ) (m : ℕ) :
    zFlagAt tz zs z (m + 1) = zFlagAt tz zs (zIter tz zs z) m := by
  rw [zFlagAt, zFlagAt, Function.iterate_succ_apply]

lemma zIter_pos {tz zs : ℚ} (htz : 0 < tz) (hzs : 0 < zs) (hzs1 : zs < 1)
    {z : ℚ} (hz : 0 < z) : 0 < zIter tz zs z := by
  have hmul : z * zs < z := by
    calc z * zs < z * 1 := mul_lt_mul_of_pos_left hzs1 hz
      _ = z := mul_one z
  rw [zIter]
  unfold getCloserF64
  split_ifs with h1 h2 h3 h4
  all_goals dsimp only
  · exact htz
  · exact htz
  · linarith [mul_pos hz hzs]
  · exact htz
  · linarith

lemma zFlagAt_self (tz zs : ℚ) : zFlagAt tz zs tz 0 = true := by
  rw [zFlagAt]
  show (getCloserF64 tz tz (tz * zs)).2 = true
  rw [getCloserF64_self]

lemma z_reaches_up_aux (tz zs : ℚ) (hzs : 0 < zs) :
    ∀ (n : ℕ) (z : ℚ), 0 < z → z ≤ tz → tz ≤ z * (1 + zs) ^ n →
      ∃ m, zFlagAt tz zs z m = true := by
  intro n
  induction n with
  | zero =>
    intro z _ hle hup
    simp only [pow_zero, mul_one] at hup
    have hz : z = tz := le_antisymm hle hup
    subst hz
    exact ⟨0, zFlagAt_self z zs⟩
  | succ n ih =>
    intro z hz hle hup
    rcases eq_or_lt_of_le hle with rfl | hlt
    · exact ⟨0, zFlagAt_self z zs⟩
    · by_cases hsnap : tz - z < z * zs
      · refine ⟨0, ?_⟩
        show (getCloserF64 z tz (z * zs)).2 = true
        unfold getCloserF64
        rw [if_neg hlt.ne, if_pos hlt, if_pos hsnap]
      · have hzval : zIter tz zs z = z + z * zs := by
          rw [zIter]
          unfold getCloserF64
          rw [if_neg hlt.ne, if_pos hlt, if_neg hsnap]
        have hz1pos : 0 < z + z * zs := by linarith [mul_pos hz hzs]
        have hz1le : z + z * zs ≤ tz := by linarith [not_lt.mp hsnap]
        have hup1 : tz ≤ (z + z * zs) * (1 + zs) ^ n := by
          have h2 : z * (1 + zs) ^ (n + 1) = (z + z * zs) * (1 + zs) ^ n := by
            ring
          rw [h2] at hup
          exact hup
        obtain ⟨m, hm⟩ := ih (z + z * zs) hz1pos hz1le hup1
        refine ⟨m + 1, ?_⟩
        rw [zFlagAt_succ, hzval]
        exact hm

lemma z_reaches_down_aux (tz zs : ℚ) :
    ∀ (n : ℕ) (z : ℚ), tz ≤ z → z * (1 - zs) ^ n < tz →
      ∃ m, zFlagAt tz zs z m = true := by
  intro n
  induction n with
  | zero =>
    intro z hge hdown
    simp only [pow_zero, mul_one] at hdown
    exact absurd hdown (not_lt.mpr hge)
  | succ n ih =>
    intro z hge hdown
    rcases eq_or_lt_of_le hge with rfl | hlt
    · exact ⟨0, zFlagAt_self tz zs⟩
    · by_cases hsnap : z - tz < z * zs
      · refine ⟨0, ?_⟩
        show (getCloserF64 z tz (z * zs)).2 = true
        unfold getCloserF64
        rw [if_neg hlt.ne', if_neg (not_lt.mpr hlt.le), if_pos hsnap]
      · have hzval : zIter tz zs z = z - z * zs := by
          rw [zIter]
          unfold getCloserF64
          rw [if_neg hlt.ne', if_neg (not_lt.mpr hlt.le), if_neg hsnap]
        have hz1ge : tz ≤ z - z * zs := by linarith [not_lt.mp hsnap]
        have hdown1 : (z - z * zs) * (1 - zs) ^ n < tz := by
          have h2 : z * (1 - zs) ^ (n + 1) = (z - z * zs) * (1 - zs) ^ n := by
            ring
          rw [h2] at hdown
          exact hdown
        obtain ⟨m, hm⟩ := ih (z - z * zs) hz1ge hdown1
        refine ⟨m + 1, ?_⟩
        rw [zFlagAt_succ, hzval]
        exact hm

lemma z_reaches (tz zs : ℚ) (htz : 0 < tz) (hzs : 0 < zs) (hzs1 : zs < 1)
    (z : ℚ) (hz : 0 < z) : ∃ m, zFlagAt tz zs z m = true := by
  rcases lt_trichotomy z tz with hlt | rfl | hgt
  · have hexists : ∃ n : ℕ, tz ≤ z * (1 + zs) ^ n := by
      obtain ⟨n, hn⟩ := exists_nat_gt ((tz / z - 1) / zs)
      refine ⟨n, ?_⟩
      have h1 : tz / z - 1 < n * zs := by
        rw [div_lt_iff₀ hzs] at hn
        linarith
      have h2 : (1 : ℚ) + n * zs ≤ (1 + zs) ^ n :=
        one_add_mul_le_pow (by linarith : (-2 : ℚ) ≤ zs) n
      have h3 : tz / z < (1 + zs) ^ n := by linarith
      rw [div_lt_iff₀ hz] at h3
      calc tz ≤ (1 + zs) ^ n * z := h3.le
        _ = z * (1 + zs) ^ n := by ring
    obtain ⟨n, hn⟩ := hexists
    exact z_reaches_up_aux tz zs hzs n z hz hlt.le hn
  · exact ⟨0, zFlagAt_self z zs⟩
  · have hexists : ∃ n : ℕ, z * (1 - zs) ^ n < tz := by
      obtain ⟨n, hn⟩ := exists_pow_lt_of_lt_one (div_pos htz hz)
        (by linarith : 1 - zs < 1)
      refine ⟨n, ?_⟩
      rw [lt_div_iff₀ hz] at hn
      calc z * (1 - zs) ^ n = (1 - zs) ^ n * z := by ring
        _ < tz := hn
    obtain ⟨n, hn⟩ := hexists
    exact z_reaches_down_aux tz zs n z hgt.le hn

lemma posSeq_succ_shift (tgt : Position) (os : Point ℚ) (zs ls : ℚ)
    (p : Position) (n : ℕ) :
    posSeq tgt os zs ls p (n + 1) =
      posSeq tgt os zs ls (stepPos tgt os zs ls p) n := by
  rw [posSeq, posSeq, Function.iterate_succ_apply]

lemma posSeq_succ_top (tgt : Position) (os : Point ℚ) (zs ls : ℚ)
    (p : Position) (n : ℕ) :
    posSeq tgt os zs ls p (n + 1) =
      stepPos tgt os zs ls (posSeq tgt os zs ls p n) := by
  rw [posSeq, posSeq, Function.iterate_succ_apply']

lemma term_shift {tgt : Position} {os : Point ℚ} {zs ls : ℚ} {p : Position}
    (h : TermIn tgt os zs ls (stepPos tgt os zs ls p)) :
    TermIn tgt os zs ls p := by
  obtain ⟨n, hn⟩ := h
  exact ⟨n + 1, by rw [posSeq_succ_shift]; exact hn⟩

lemma make_step_lt_false {p tgt : Position} {os : Point ℚ} (zs ls : ℚ)
    (hbr : p.zoom < tgt.zoom) (hrp : (make_step_point p tgt os).2 = false) :
    make_step p tgt os zs ls = ((make_step_point p tgt os).1, false) := by
  rw [make_step, if_pos hbr, if_neg (by simp [hrp])]

lemma make_step_lt_true {p tgt : Position} {os : Point ℚ} (zs ls : ℚ)
    (hbr : p.zoom < tgt.zoom) (hrp : (make_step_point p tgt os).2 = true) :
    make_step p tgt os zs ls =
      ((make_step_zoom_and_limit (make_step_point p tgt os).1 tgt zs ls).1,
       (make_step_zoom_and_limit (make_step_point p tgt os).1 tgt zs ls).2) := by
  rw [make_step, if_pos hbr, if_pos (by simp [hrp])]
  dsimp only
  rw [hrp, Bool.true_and]

lemma make_step_ge_false {p tgt : Position} (os : Point ℚ) {zs ls : ℚ}
    (hbr : ¬p.zoom < tgt.zoom)
    (hzf : (make_step_zoom_and_limit p tgt zs ls).2 = false) :
    make_step p tgt os zs ls = ((make_step_zoom_and_limit p tgt zs ls).1, false) := by
  rw [make_step, if_neg hbr, if_neg (by simp [hzf])]

lemma make_step_ge_true {p tgt : Position} (os : Point ℚ) {zs ls : ℚ}
    (hbr : ¬p.zoom < tgt.zoom)
    (hzf : (make_step_zoom_and_limit p tgt zs ls).2 = true) :
    make_step p tgt os zs ls =
      ((make_step_point (make_step_zoom_and_limit p tgt zs ls).1 tgt os).1,
       (make_step_point (make_step_zoom_and_limit p tgt zs ls).1 tgt os).2) := by
  rw [make_step, if_neg hbr, if_pos (by simp [hzf])]
  dsimp only
  rw [hzf, Bool.true_and]

lemma mszl_flag (p tgt : Position) (zs ls : ℚ) :
    (make_step_zoom_and_limit p tgt zs ls).2 =
      (getCloserF64 p.zoom tgt.zoom (p.zoom * zs)).2 := by
  rw [make_step_zoom_and_limit]
  cases h : (getCloserF64 p.zoom tgt.zoom (p.zoom * zs)).2
  · simp only [h, Bool.false_eq_true, if_false]
    split_ifs <;> rfl
  · simp only [h, if_true]

lemma mszl_zoom (p tgt : Position) (zs ls : ℚ) :
    (make_step_zoom_and_limit p tgt zs ls).1.zoom =
      (getCloserF64 p.zoom tgt.zoom (p.zoom * zs)).1 := by
  rw [make_step_zoom_and_limit]
  cases h : (getCloserF64 p.zoom tgt.zoom (p.zoom * zs)).2
  · simp only [h, Bool.false_eq_true, if_false]
    split_ifs <;> rfl
  · simp only [h, if_true]

lemma msp_true_point {p tgt : Position} {os : Point ℚ}
    (h : (make_step_point p tgt os).2 = true) :
    (make_step_point p tgt os).1.point = tgt.point :=
  getCloserPoint_true_eq h

lemma mszl_true_state {p tgt : Position} {zs ls : ℚ}
    (h : (make_step_zoom_and_limit p tgt zs ls).2 = true) :
    (make_step_zoom_and_limit p tgt zs ls).1 =
      ⟨p.point, tgt.zoom, tgt.limit⟩ := by
  have hflag : (getCloserF64 p.zoom tgt.zoom (p.zoom * zs)).2 = true := by
    rw [← mszl_flag p tgt zs ls]
    exact h
  rw [make_step_zoom_and_limit, hflag]
  dsimp only
  rw [getCloserF64_true_eq hflag]
  simp

lemma make_step_true_eq {p tgt : Position} {os : Point ℚ} {zs ls : ℚ}
    (h : (make_step p tgt os zs ls).2 = true) :
    (make_step p tgt os zs ls).1 = tgt := by
  by_cases hbr : p.zoom < tgt.zoom
  · cases hrp : (make_step_point p tgt os).2
    · rw [make_step_lt_false zs ls hbr hrp] at h
      cases h
    · rw [make_step_lt_true zs ls hbr hrp] at h ⊢
      rw [mszl_true_state h, msp_true_point hrp]
  · cases hzf : (make_step_zoom_and_limit p tgt zs ls).2
    · rw [make_step_ge_false os hbr hzf] at h
      cases h
    · rw [make_step_ge_true os hbr hzf] at h ⊢
      have h2 := msp_true_point h
      have h3 := mszl_true_state hzf
      have hz : (make_step_point (make_step_zoom_and_limit p tgt zs ls).1
          tgt os).1.zoom = tgt.zoom := by
        rw [make_step_point_zoom, h3]
      have hl : (make_step_point (make_step_zoom_and_limit p tgt zs ls).1
          tgt os).1.limit = tgt.limit := by
        rw [make_step_point_limit, h3]
      calc (make_step_point (make_step_zoom_and_limit p tgt zs ls).1 tgt os).1
          = ⟨(make_step_point (make_step_zoom_and_limit p tgt zs ls).1 tgt os).1.point,
             (make_step_point (make_step_zoom_and_limit p tgt zs ls).1 tgt os).1.zoom,
             (make_step_point (make_step_zoom_and_limit p tgt zs ls).1 tgt os).1.limit⟩ := rfl
        _ = ⟨tgt.point, tgt.zoom, tgt.limit⟩ := by rw [h2, hz, hl]
        _ = tgt := rfl

section Termination

variable {tgt : Position} {os : Point ℚ} {zs ls : ℚ}

lemma tick_zoom_eq (p : Position) (hpz : p.zoom = tgt.zoom) :
    make_step p tgt os zs ls =
      ((⟨(getCloserPoint p.point tgt.point (os.divScalar tgt.zoom)).1,
          tgt.zoom, tgt.limit⟩ : Position),
       (getCloserPoint p.point tgt.point (os.divScalar tgt.zoom)).2) := by
  have hbr : ¬p.zoom < tgt.zoom := by
    rw [hpz]
    exact lt_irrefl _
  have hzf : (make_step_zoom_and_limit p tgt zs ls).2 = true := by
    rw [mszl_flag, hpz, getCloserF64_self]
  rw [make_step_ge_true os hbr hzf, mszl_true_state hzf]
  rfl

lemma tick_point_eq (p : Position) (hpt : p.point = tgt.point) :
    (make_step p tgt os zs ls).2 =
      (getCloserF64 p.zoom tgt.zoom (p.zoom * zs)).2 ∧
    (make_step p tgt os zs ls).1.point = tgt.point ∧
    (make_step p tgt os zs ls).1.zoom =
      (getCloserF64 p.zoom tgt.zoom (p.zoom * zs)).1 := by
  have hmsp_flag : (make_step_point p tgt os).2 = true := by
    show (getCloserPoint p.point tgt.point (os.divScalar p.zoom)).2 = true
    rw [hpt, getCloserPoint_self]
  have hmsp_state : (make_step_point p tgt os).1 = p := by
    calc (make_step_point p tgt os).1
        = { p with point :=
            (getCloserPoint p.point tgt.point (os.divScalar p.zoom)).1 } := rfl
      _ = p := by rw [hpt, getCloserPoint_self, ← hpt]
  by_cases hbr : p.zoom < tgt.zoom
  · rw [make_step_lt_true zs ls hbr hmsp_flag, hmsp_state]
    exact ⟨mszl_flag .., by rw [make_step_zoom_and_limit_point, hpt],
      mszl_zoom ..⟩
  · cases hzf : (make_step_zoom_and_limit p tgt zs ls).2
    · rw [make_step_ge_false os hbr hzf]
      refine ⟨?_, ?_, ?_⟩
      · show false = (getCloserF64 p.zoom tgt.zoom (p.zoom * zs)).2
        rw [← mszl_flag p tgt zs ls, hzf]
      · show (make_step_zoom_and_limit p tgt zs ls).1.point = tgt.point
        rw [make_step_zoom_and_limit_point, hpt]
      · exact mszl_zoom ..
    · rw [make_step_ge_true os hbr hzf]
      have hflag2 : (make_step_point (make_step_zoom_and_limit p tgt zs ls).1
          tgt os).2 = true := by
        show (getCloserPoint (make_step_zoom_and_limit p tgt zs ls).1.point
          tgt.point _).2 = true
        rw [make_step_zoom_and_limit_point, hpt, getCloserPoint_self]
      refine ⟨?_, msp_true_point hflag2, ?_⟩
      · rw [hflag2, ← mszl_flag p tgt zs ls, hzf]
      · rw [make_step_point_zoom]
        exact mszl_zoom ..

lemma term_of_zoom_eq_aux :
    ∀ (m : ℕ) (p : Position), p.zoom = tgt.zoom →
      pFlagAt tgt.point (os.divScalar tgt.zoom) p.point m = true →
      TermIn tgt os zs ls p := by
  intro m
  induction m with
  | zero =>
    intro p hpz hflag
    refine ⟨0, ?_⟩
    show (make_step p tgt os zs ls).2 = true
    rw [tick_zoom_eq p hpz]
    exact hflag
  | succ m ih =>
    intro p hpz hflag
    cases h0 : (getCloserPoint p.point tgt.point (os.divScalar tgt.zoom)).2
    · have hnext : stepPos tgt os zs ls p =
          ⟨(getCloserPoint p.point tgt.point (os.divScalar tgt.zoom)).1,
            tgt.zoom, tgt.limit⟩ := by
        rw [stepPos, tick_zoom_eq p hpz]
      apply term_shift
      rw [hnext]
      apply ih
      · rfl
      · rwa [pFlagAt_succ] at hflag
    · refine ⟨0, ?_⟩
      show (make_step p tgt os zs ls).2 = true
      rw [tick_zoom_eq p hpz]
      exact h0

lemma term_of_zoom_eq (hosx : 0 < os.x) (hosy : 0 < os.y)
    (htz : 0 < tgt.zoom) (p : Position) (hpz : p.zoom = tgt.zoom) :
    TermIn tgt os zs ls p := by
  obtain ⟨m, hm⟩ := p_reaches tgt.point (os.divScalar tgt.zoom)
    (div_pos hosx htz) (div_pos hosy htz) p.point
  exact term_of_zoom_eq_aux m p hpz hm

lemma term_of_point_eq_aux (htz : 0 < tgt.zoom) (hzs : 0 < zs)
    (hzs1 : zs < 1) :
    ∀ (m : ℕ) (p : Position), p.point = tgt.point → 0 < p.zoom →
      zFlagAt tgt.zoom zs p.zoom m = true → TermIn tgt os zs ls p := by
  intro m
  induction m with
  | zero =>
    intro p hpt hz hflag
    refine ⟨0, ?_⟩
    show (make_step p tgt os zs ls).2 = true
    rw [(tick_point_eq p hpt).1]
    exact hflag
  | succ m ih =>
    intro p hpt hz hflag
    cases h0 : (getCloserF64 p.zoom tgt.zoom (p.zoom * zs)).2
    · obtain ⟨hfl, hpoint, hzoom⟩ := tick_point_eq p hpt
      apply term_shift
      apply ih
      · exact hpoint
      · show 0 < (stepPos tgt os zs ls p).zoom
        rw [show (stepPos tgt os zs ls p).zoom =
          (getCloserF64 p.zoom tgt.zoom (p.zoom * zs)).1 from hzoom]
        exact zIter_pos htz hzs hzs1 hz
      · show zFlagAt tgt.zoom zs (stepPos tgt os zs ls p).zoom m = true
        rw [show (stepPos tgt os zs ls p).zoom =
          (getCloserF64 p.zoom tgt.zoom (p.zoom * zs)).1 from hzoom]
        rwa [zFlagAt_succ] at hflag
    · refine ⟨0, ?_⟩
      show (make_step p tgt os zs ls).2 = true
      rw [(tick_point_eq p hpt).1]
      exact h0

lemma term_of_point_eq (htz : 0 < tgt.zoom) (hzs : 0 < zs) (hzs1 : zs < 1)
    (p : Position) (hpt : p.point = tgt.point) (hz : 0 < p.zoom) :
    TermIn tgt os zs ls p := by
  obtain ⟨m, hm⟩ := z_reaches tgt.zoom zs htz hzs hzs1 p.zoom hz
  exact term_of_point_eq_aux htz hzs hzs1 m p hpt hz hm

lemma gc_down_ge (z tz zzs : ℚ) (hge : tz ≤ z)
    (hf : (getCloserF64 z tz (z * zzs)).2 = false) :
    tz ≤ (getCloserF64 z tz (z * zzs)).1 := by
  rcases eq_or_lt_of_le hge with rfl | hlt
  · rw [getCloserF64_self] at hf
    cases hf
  · have hne : z ≠ tz := hlt.ne'
    have hnlt : ¬z < tz := not_lt.mpr hlt.le
    unfold getCloserF64 at hf ⊢
    rw [if_neg hne, if_neg hnlt] at hf ⊢
    by_cases hsnap : z - tz < z * zzs
    · rw [if_pos hsnap] at hf
      cases hf
    · rw [if_neg hsnap]
      dsimp only
      linarith [not_lt.mp hsnap]

lemma term_of_zoom_ge_reached (hosx : 0 < os.x) (hosy : 0 < os.y)
    (htz : 0 < tgt.zoom) (p : Position) (hbr : ¬p.zoom < tgt.zoom)
    (hzf : (make_step_zoom_and_limit p tgt zs ls).2 = true) :
    TermIn tgt os zs ls p := by
  cases hrp : (make_step_point (make_step_zoom_and_limit p tgt zs ls).1
      tgt os).2
  · have hnext : stepPos tgt os zs ls p =
        (make_step_point (make_step_zoom_and_limit p tgt zs ls).1 tgt os).1 := by
      rw [stepPos, make_step_ge_true os hbr hzf]
    apply term_shift
    rw [hnext]
    apply term_of_zoom_eq hosx hosy htz
    rw [make_step_point_zoom, mszl_true_state hzf]
  · refine ⟨0, ?_⟩
    show (make_step p tgt os zs ls).2 = true
    rw [make_step_ge_true os hbr hzf]
    exact hrp

lemma term_of_zoom_ge_aux (hosx : 0 < os.x) (hosy : 0 < os.y)
    (htz : 0 < tgt.zoom) (hzs : 0 < zs) (hzs1 : zs < 1) :
    ∀ (m : ℕ) (p : Position), ¬p.zoom < tgt.zoom → 0 < p.zoom →
      zFlagAt tgt.zoom zs p.zoom m = true → TermIn tgt os zs ls p := by
  intro m
  induction m with
  | zero =>
    intro p hbr hz hflag
    have hzf : (make_step_zoom_and_limit p tgt zs ls).2 = true := by
      rw [mszl_flag]
      exact hflag
    exact term_of_zoom_ge_reached hosx hosy htz p hbr hzf
  | succ m ih =>
    intro p hbr hz hflag
    cases h0 : (getCloserF64 p.zoom tgt.zoom (p.zoom * zs)).2
    · have hzf : (make_step_zoom_and_limit p tgt zs ls).2 = false := by
        rw [mszl_flag]
        exact h0
      have hnext : stepPos tgt os zs ls p =
          (make_step_zoom_and_limit p tgt zs ls).1 := by
        rw [stepPos, make_step_ge_false os hbr hzf]
      apply term_shift
      rw [hnext]
      apply ih
      · rw [mszl_zoom]
        exact not_lt.mpr (gc_down_ge p.zoom tgt.zoom zs (not_lt.mp hbr) h0)
      · rw [mszl_zoom]
        exact zIter_pos htz hzs hzs1 hz
      · rw [mszl_zoom]
        rwa [zFlagAt_succ] at hflag
    · have hzf : (make_step_zoom_and_limit p tgt zs ls).2 = true := by
        rw [mszl_flag]
        exact h0
      exact term_of_zoom_ge_reached hosx hosy htz p hbr hzf

lemma term_of_zoom_lt_reached (_hosx : 0 < os.x) (_hosy : 0 < os.y)
    (htz : 0 < tgt.zoom) (hzs : 0 < zs) (hzs1 : zs < 1) (p : Position)
    (hbr : p.zoom < tgt.zoom) (hz : 0 < p.zoom)
    (hrp : (make_step_point p tgt os).2 = true) :
    TermIn tgt os zs ls p := by
  cases hzf : (make_step_zoom_and_limit (make_step_point p tgt os).1
      tgt zs ls).2
  · have hnext : stepPos tgt os zs ls p =
        (make_step_zoom_and_limit (make_step_point p tgt os).1 tgt zs ls).1 := by
      rw [stepPos, make_step_lt_true zs ls hbr hrp]
    apply term_shift
    rw [hnext]
    apply term_of_point_eq htz hzs hzs1
    · rw [make_step_zoom_and_limit_point, msp_true_point hrp]
    · rw [mszl_zoom, make_step_point_zoom]
      exact zIter_pos htz hzs hzs1 hz
  · refine ⟨0, ?_⟩
    show (make_step p tgt os zs ls).2 = true
    rw [make_step_lt_true zs ls hbr hrp]
    exact hzf

lemma term_of_zoom_lt_aux (hosx : 0 < os.x) (hosy : 0 < os.y)
    (htz : 0 < tgt.zoom) (hzs : 0 < zs) (hzs1 : zs < 1) :
    ∀ (m : ℕ) (p : Position), p.zoom < tgt.zoom → 0 < p.zoom →
      pFlagAt tgt.point (os.divScalar p.zoom) p.point m = true →
      TermIn tgt os zs ls p := by
  intro m
  induction m with
  | zero =>
    intro p hbr hz hflag
    exact term_of_zoom_lt_reached hosx hosy htz hzs hzs1 p hbr hz hflag
  | succ m ih =>
    intro p hbr hz hflag
    cases hrp : (make_step_point p tgt os).2
    · have hnext : stepPos tgt os zs ls p = (make_step_point p tgt os).1 := by
        rw [stepPos, make_step_lt_false zs ls hbr hrp]
      apply term_shift
      rw [hnext]
      apply ih
      · rw [make_step_point_zoom]
        exact hbr
      · rw [make_step_point_zoom]
        exact hz
      · show pFlagAt tgt.point (os.divScalar (make_step_point p tgt os).1.zoom)
          (make_step_point p tgt os).1.point m = true
        rw [make_step_point_zoom]
        show pFlagAt tgt.point (os.divScalar p.zoom)
          (pIter tgt.point (os.divScalar p.zoom) p.point) m = true
        rw [← pFlagAt_succ]
        exact hflag
    · exact term_of_zoom_lt_reached hosx hosy htz hzs hzs1 p hbr hz hrp

lemma term_all (hosx : 0 < os.x) (hosy : 0 < os.y) (htz : 0 < tgt.zoom)
    (hzs : 0 < zs) (hzs1 : zs < 1) (p : Position) (hz : 0 < p.zoom) :
    TermIn tgt os zs ls p := by
  by_cases hbr : p.zoom < tgt.zoom
  · obtain ⟨m, hm⟩ := p_reaches tgt.point (os.divScalar p.zoom)
      (div_pos hosx hz) (div_pos hosy hz) p.point
    exact term_of_zoom_lt_aux hosx hosy htz hzs hzs1 m p hbr hz hm
  · obtain ⟨m, hm⟩ := z_reaches tgt.zoom zs htz hzs hzs1 p.zoom hz
    exact term_of_zoom_ge_aux hosx hosy htz hzs hzs1 m p hbr hz hm

end Termination

/-- C7: from any start Position with positive zoom toward any target with
positive zoom, with positive per-axis offset scale, zoom scale strictly
between 0 and 1 and positive limit scale, repeated make_step reports true
after finitely many ticks and at that tick the Position equals the target
exactly in point, zoom and limit; and when the start equals the target the
very first call reports true and leaves the Position unchanged. -/
theorem c7_make_step_terminates (start tgt : Position) (os : Point ℚ)
    (zs ls : ℚ) (hz0 : 0 < start.zoom) (htz : 0 < tgt.zoom)
    (hosx : 0 < os.x) (hosy : 0 < os.y) (hzs : 0 < zs) (hzs1 : zs < 1)
    (_hls : 0 < ls) :
    (∃ n, stepFlag tgt os zs ls (posSeq tgt os zs ls start n) = true ∧
      posSeq tgt os zs ls start (n + 1) = tgt) ∧
    (start = tgt → stepFlag tgt os zs ls start = true ∧
      stepPos tgt os zs ls start = start) := by
  constructor
  · obtain ⟨n, hn⟩ := term_all hosx hosy htz hzs hzs1 start hz0
    refine ⟨n, hn, ?_⟩
    rw [posSeq_succ_top, stepPos]
    exact make_step_true_eq hn
  · intro heq
    subst heq
    have hzf : (make_step_zoom_and_limit start start zs ls).2 = true := by
      rw [mszl_flag, getCloserF64_self]
    have hflag : stepFlag start os zs ls start = true := by
      show (make_step start start os zs ls).2 = true
      rw [make_step_ge_true os (lt_irrefl _) hzf]
      show (getCloserPoint
        (make_step_zoom_and_limit start start zs ls).1.point
        start.point _).2 = true
      rw [make_step_zoom_and_limit_point, getCloserPoint_self]
    refine ⟨hflag, ?_⟩
    show (make_step start start os zs ls).1 = start
    exact make_step_true_eq hflag

theorem c7_witness :
    ∃ n, stepFlag ⟨⟨1, 0⟩, 2, 20⟩ ⟨1, 1⟩ (1/2) 1
        (posSeq ⟨⟨1, 0⟩, 2, 20⟩ ⟨1, 1⟩ (1/2) 1 ⟨⟨0, 0⟩, 1, 10⟩ n) = true ∧
      posSeq ⟨⟨1, 0⟩, 2, 20⟩ ⟨1, 1⟩ (1/2) 1 ⟨⟨0, 0⟩, 1, 10⟩ (n + 1) =
        ⟨⟨1, 0⟩, 2, 20⟩ :=
  (c7_make_step_terminates ⟨⟨0, 0⟩, 1, 10⟩ ⟨⟨1, 0⟩, 2, 20⟩ ⟨1, 1⟩ (1/2) 1
    (by norm_num) (by norm_num) (by norm_num) (by norm_num) (by norm_num)
    (by norm_num) (by norm_num)).1

end Mandelbrot
